import Mathlib

/-!
Shallow embedding of the word-frequency consolidation engine in
data-scripts/build_frequency_lists.py, together with theorems about its
loader, global deduplicator, and heuristic filter and packer stages.
Python dictionaries are modelled as insertion-ordered association lists,
matching the iteration-order semantics the script relies on, and the
runtime failures the script can exhibit, an IndexError on a field-free
line, an AssertionError in the deduplication pass and a KeyError on a
missing configuration entry, are modelled as explicit error values.
-/

namespace BuildFrequencyLists

/-- Tokens and list names are plain strings. -/
abbrev Token := String

/-- Runtime failures the script can raise while consolidating. -/
inductive RunError where
  | indexError : RunError
  | assertionError : RunError
  | keyError : RunError
  deriving DecidableEq

/-- Lookup in an insertion-ordered association list, the model of reading a
Python dict. -/
def dictLookup {α : Type} (d : List (Token × α)) (k : Token) : Option α :=
  match d with
  | [] => none
  | p :: rest => if p.1 = k then some p.2 else dictLookup rest k

/-- Python dict assignment: an existing key keeps its position and receives
the new value, a new key is appended at the end, preserving insertion
order. -/
def dictInsert {α : Type} (d : List (Token × α)) (k : Token) (v : α) :
    List (Token × α) :=
  match d with
  | [] => [(k, v)]
  | p :: rest => if p.1 = k then (k, v) :: rest else p :: dictInsert rest k v

/-- The comma character. -/
def commaChar : Char := ','

/-- The double quote character, written by code point. -/
def quoteChar : Char := Char.ofNat 34

/-- Python has_only_one_char: the set of distinct characters of the token has
size one. -/
def has_only_one_char (token : Token) : Bool :=
  token.data.dedup.length == 1

/-- Python has_comma_or_double_quote. The Python version also receives the
rank and the list name but ignores both. -/
def has_comma_or_double_quote (token : Token) : Bool :=
  token.data.contains commaChar || token.data.contains quoteChar

/-- Python constant MIN_GUESSES_BEFORE_GROWING_SEQUENCE. -/
def MIN_GUESSES_BEFORE_GROWING_SEQUENCE : Nat := 1000

/-- Python is_rare_and_short. -/
def is_rare_and_short (token : Token) (rank : Nat) : Bool :=
  decide (rank ≥ 10 ^ token.length) || decide (token.length ≤ 2)

/-- Python is_brutal_better, the brute force dominance heuristic: the token
with its final character dropped is looked up in the global minimum rank
index. -/
def is_brutal_better (token : Token) (rank : Nat)
    (minimum_rank : List (Token × Nat)) : Bool :=
  if rank < MIN_GUESSES_BEFORE_GROWING_SEQUENCE then false
  else if token.length < 5 then false
  else
    let short_token := token.dropRight 1
    match dictLookup minimum_rank short_token with
    | some srank => decide (rank > srank * 22 + MIN_GUESSES_BEFORE_GROWING_SEQUENCE)
    | none => false

/-- Whitespace splitting over the characters of a line, accumulating the
current field in reverse. -/
def splitWords (acc : List Char) (cs : List Char) : List (List Char) :=
  match cs with
  | [] => if acc.isEmpty then [] else [acc.reverse]
  | c :: rest =>
    if c.isWhitespace then
      if acc.isEmpty then splitWords [] rest
      else acc.reverse :: splitWords [] rest
    else splitWords (c :: acc) rest

/-- Python str.split with no separator: split on runs of whitespace and
discard empty fields. -/
def pySplit (line : String) : List Token :=
  (splitWords [] line.data).map (fun w => String.mk w)

/-- Body of the line loop in parse_frequency_lists: extract the first
whitespace-delimited field, apply the three early exclusion rules, and
otherwise store the token at the current rank, overwriting any earlier
entry for the same token. A line with no field raises IndexError. -/
def parseLine (token_to_rank : List (Token × Nat)) (rank : Nat) (line : String) :
    Except RunError (List (Token × Nat)) :=
  match pySplit line with
  | [] => Except.error RunError.indexError
  | token :: _ =>
    if has_only_one_char token then Except.ok token_to_rank
    else if has_comma_or_double_quote token then Except.ok token_to_rank
    else if is_rare_and_short token rank then Except.ok token_to_rank
    else Except.ok (dictInsert token_to_rank token rank)

/-- The line loop of parse_frequency_lists from a given starting rank. -/
def parseLinesFrom (token_to_rank : List (Token × Nat)) (rank : Nat) :
    List String → Except RunError (List (Token × Nat))
  | [] => Except.ok token_to_rank
  | line :: rest =>
    match parseLine token_to_rank rank line with
    | Except.error e => Except.error e
    | Except.ok d => parseLinesFrom d (rank + 1) rest

/-- Loading one frequency file: ranks start at one. -/
def parseLines (lines : List String) : Except RunError (List (Token × Nat)) :=
  parseLinesFrom [] 1 lines

/-- Python parse_frequency_lists over a directory listing, modelled as a list
of file base names paired with their lines; names missing from the
DICTIONARIES configuration are skipped with a console warning. -/
def parse_frequency_lists (dicts : List (Token × Option Nat))
    (files : List (Token × List String)) :
    Except RunError (List (Token × List (Token × Nat))) :=
  match files with
  | [] => Except.ok []
  | f :: rest =>
    if (dictLookup dicts f.1).isSome then
      match parseLines f.2 with
      | Except.error e => Except.error e
      | Except.ok d =>
        match parse_frequency_lists dicts rest with
        | Except.error e => Except.error e
        | Except.ok fl => Except.ok ((f.1, d) :: fl)
    else parse_frequency_lists dicts rest

/-- The transient global minimum rank index: minimum_rank maps a token to the
lowest rank seen so far, minimum_name to the name of the list achieving
it. -/
structure MinIndex where
  minimum_rank : List (Token × Nat)
  minimum_name : List (Token × Token)
  deriving DecidableEq

/-- Body of the deduplication loop in filter_frequency_lists for one
(name, token, rank) triple, with the three assertions modelled as
errors. -/
def dedupStep (st : MinIndex) (name token : Token) (rank : Nat) :
    Except RunError MinIndex :=
  match dictLookup st.minimum_rank token with
  | none =>
    match dictLookup st.minimum_name token with
    | some _ => Except.error RunError.assertionError
    | none =>
      Except.ok ⟨dictInsert st.minimum_rank token rank,
                 dictInsert st.minimum_name token name⟩
  | some min_rank =>
    match dictLookup st.minimum_name token with
    | none => Except.error RunError.assertionError
    | some owner =>
      if owner = name then Except.error RunError.assertionError
      else if rank < min_rank then
        Except.ok ⟨dictInsert st.minimum_rank token rank,
                   dictInsert st.minimum_name token name⟩
      else Except.ok st

/-- Inner deduplication loop over the entries of one list. -/
def dedupList (name : Token) (entries : List (Token × Nat)) (st : MinIndex) :
    Except RunError MinIndex :=
  match entries with
  | [] => Except.ok st
  | e :: rest =>
    match dedupStep st name e.1 e.2 with
    | Except.error err => Except.error err
    | Except.ok st2 => dedupList name rest st2

/-- Outer deduplication loop of filter_frequency_lists: builds the global
minimum rank index over all lists in processing order. -/
def buildMinIndex (freq_lists : List (Token × List (Token × Nat)))
    (st : MinIndex) : Except RunError MinIndex :=
  match freq_lists with
  | [] => Except.ok st
  | p :: rest =>
    match dedupList p.1 p.2 st with
    | Except.error err => Except.error err
    | Except.ok st2 => buildMinIndex rest st2

/-- Ordering of token and rank pairs by rank, the sort key itemgetter(1). -/
def rankLE (a b : Token × Nat) : Prop := a.2 ≤ b.2

instance : DecidableRel rankLE := fun a b => Nat.decLe a.2 b.2

instance : IsTotal (Token × Nat) rankLE := ⟨fun a b => Nat.le_total a.2 b.2⟩

instance : IsTrans (Token × Nat) rankLE := ⟨fun _ _ _ => Nat.le_trans⟩

/-- The ownership and heuristic pass of filter_frequency_lists for one list:
keep, in source order, the entries whose token the list owns in the global
index and that the brute force dominance heuristic does not exclude. -/
def survivors (name : Token) (entries : List (Token × Nat)) (idx : MinIndex) :
    List (Token × Nat) :=
  entries.filter (fun p =>
    decide (dictLookup idx.minimum_name p.1 = some name) &&
      !(is_brutal_better p.1 p.2 idx.minimum_rank))

/-- The packing pass for one list: stable sort ascending by rank, then the
configured cutoff, which Python tests for truthiness, so a None or zero
cutoff never truncates. -/
def pack (token_rank_pairs : List (Token × Nat)) (cutoff_limit : Option Nat) :
    List (Token × Nat) :=
  let sorted := List.insertionSort rankLE token_rank_pairs
  match cutoff_limit with
  | none => sorted
  | some c => if c ≠ 0 ∧ sorted.length > c then sorted.take c else sorted

/-- The result loop of filter_frequency_lists: look up the configured cutoff
for each list, raising KeyError when absent, pack the surviving entries of
the list and keep only the tokens, discarding ranks after the sort. List
names are assumed distinct, as the loader produces them from distinct file
names, so fusing the ownership pass and the result loop per list is
faithful to the two separate source loops. -/
def packLists (dicts : List (Token × Option Nat)) (idx : MinIndex) :
    List (Token × List (Token × Nat)) → Except RunError (List (Token × List Token))
  | [] => Except.ok []
  | p :: rest =>
    match dictLookup dicts p.1 with
    | none => Except.error RunError.keyError
    | some cutoff_limit =>
      match packLists dicts idx rest with
      | Except.error e => Except.error e
      | Except.ok res =>
        Except.ok ((p.1, (pack (survivors p.1 p.2 idx) cutoff_limit).map Prod.fst) :: res)

/-- Python filter_frequency_lists with the DICTIONARIES configuration passed
explicitly. -/
def filter_frequency_lists (dicts : List (Token × Option Nat))
    (freq_lists : List (Token × List (Token × Nat))) :
    Except RunError (List (Token × List Token)) :=
  match buildMinIndex freq_lists ⟨[], []⟩ with
  | Except.error e => Except.error e
  | Except.ok idx => packLists dicts idx freq_lists

/-- The DICTIONARIES_CZECH configuration that the script selects as
DICTIONARIES. -/
def DICTIONARIES : List (Token × Option Nat) :=
  [("us_tv_and_film", some 7000), ("english_wikipedia", some 7000),
   ("passwords", some 25000), ("surnames", some 7000),
   ("male_names", none), ("female_names", none),
   ("czech_names", some 23000), ("czech_passwords", some 20000),
   ("czech_wikipedia", some 11000), ("czech_subtitles", some 4000)]

/-- Written from the spec words for the global deduplicator: the update of
the running (name, rank) record by one occurrence, where a strictly lower
rank replaces the record and an equal or higher rank keeps the existing
owner. -/
def specMinStep (acc : Option (Token × Nat)) (occ : Token × Nat) :
    Option (Token × Nat) :=
  match acc with
  | none => some occ
  | some best => if occ.2 < best.2 then some occ else some best

/-- Written from the spec words: the (name, rank) record for a token after
folding the update policy over its sequence of occurrences. -/
def specFirstMin (occs : List (Token × Nat)) : Option (Token × Nat) :=
  occs.foldl specMinStep none

/-- Written from the spec words: the occurrences of a token across the loaded
lists in processing order, as (list name, rank) pairs. -/
def specOccurrences (t : Token)
    (freq_lists : List (Token × List (Token × Nat))) : List (Token × Nat) :=
  freq_lists.filterMap (fun p => (dictLookup p.2 t).map (fun r => (p.1, r)))

/-- Written from the loader exclusion rules: a token at a given rank survives
the three early checks. -/
def survivesLoad (token : Token) (rank : Nat) : Bool :=
  !(has_only_one_char token) && !(has_comma_or_double_quote token) &&
    !(is_rare_and_short token rank)

/-- Rank of the last surviving occurrence of a token over a sequence of
lines, from a given current rank and accumulator. -/
def lastKeptRankFrom (acc : Option Nat) (t : Token) (rank : Nat) :
    List String → Option Nat
  | [] => acc
  | line :: rest =>
    match pySplit line with
    | [] => lastKeptRankFrom acc t (rank + 1) rest
    | token :: _ =>
      if token = t ∧ survivesLoad token rank then
        lastKeptRankFrom (some rank) t (rank + 1) rest
      else lastKeptRankFrom acc t (rank + 1) rest

/-- Rank of the last surviving occurrence of a token in a file. -/
def lastKeptRank (t : Token) (lines : List String) : Option Nat :=
  lastKeptRankFrom none t 1 lines

/-- All (name, token, rank) triples of the loaded lists, flattened in the
iteration order of the deduplication loops. -/
def triples (freq_lists : List (Token × List (Token × Nat))) :
    List (Token × Token × Nat) :=
  match freq_lists with
  | [] => []
  | p :: rest => (p.2.map (fun q => (p.1, q.1, q.2))) ++ triples rest

/-- The deduplication loop viewed as a single fold over flattened triples. -/
def dedupTriples (st : MinIndex) :
    List (Token × Token × Nat) → Except RunError MinIndex
  | [] => Except.ok st
  | x :: rest =>
    match dedupStep st x.1 x.2.1 x.2.2 with
    | Except.error e => Except.error e
    | Except.ok st2 => dedupTriples st2 rest

/-- Occurrences of a token in a triple sequence. -/
def occOf (t : Token) (ts : List (Token × Token × Nat)) : List (Token × Nat) :=
  ts.filterMap (fun x => if x.2.1 = t then some (x.1, x.2.2) else none)

/-! Concrete inputs used by witnesses and counterexamples. -/

/-- Two lines of one source file carrying the same token at ranks 1 and 2. -/
def exDupLines : List String := ["cat 10", "cat 5"]

/-- A one-list configuration for the duplicate-token run. -/
def c2dicts : List (Token × Option Nat) := [("names", some 5)]

/-- Configuration for the prefix-lookup example: list a unbounded, list b
capped at one entry. -/
def c10dicts : List (Token × Option Nat) := [("a", none), ("b", some 1)]

/-- Loaded lists for the prefix-lookup example: the long token lives in list
a, its length-minus-one prefix in list b behind a capacity of one. -/
def c10fl : List (Token × List (Token × Nat)) :=
  [("a", [("abcdef", 5000)]), ("b", [("qwert", 1), ("abcde", 2)])]

/-- Configuration for the ownership counterexample, both lists unbounded. -/
def c3dicts : List (Token × Option Nat) := [("a", none), ("b", none)]

/-- Loaded lists for the ownership counterexample: the shared token has its
lowest rank in list a, where the heuristic then excludes it. -/
def c3fl : List (Token × List (Token × Nat)) :=
  [("a", [("abcde", 1), ("abcdef", 5000)]), ("b", [("abcdef", 6000)])]

/-- Loaded lists exercising a rank tie between two lists. -/
def c1fl : List (Token × List (Token × Nat)) :=
  [("aa", [("tok", 3)]), ("bb", [("tok", 3), ("oth", 1)])]

/-- Lines with the same token on the first and third line. -/
def exLinesC9 : List String := ["cat x", "dog y", "cat z"]

/-! Association list lemmas. -/

theorem dictLookup_dictInsert_self {α : Type} (d : List (Token × α)) (k : Token)
    (v : α) : dictLookup (dictInsert d k v) k = some v := by
  induction d with
  | nil => simp [dictInsert, dictLookup]
  | cons p rest ih =>
    by_cases h : p.1 = k
    · simp [dictInsert, h, dictLookup]
    · simp [dictInsert, h, dictLookup, ih]

theorem dictLookup_dictInsert_ne {α : Type} (d : List (Token × α))
    (k k2 : Token) (v : α) (h : k2 ≠ k) :
    dictLookup (dictInsert d k v) k2 = dictLookup d k2 := by
  induction d with
  | nil => simp [dictInsert, dictLookup, Ne.symm h]
  | cons p rest ih =>
    obtain ⟨a, b⟩ := p
    by_cases hp : a = k
    · subst hp
      simp [dictInsert, dictLookup, Ne.symm h]
    · by_cases hp2 : a = k2
      · simp [dictInsert, hp, dictLookup, hp2, h]
      · simp [dictInsert, hp, dictLookup, hp2, ih]

theorem mem_of_dictLookup {α : Type} (d : List (Token × α)) (k : Token)
    (v : α) (h : dictLookup d k = some v) : (k, v) ∈ d := by
  induction d with
  | nil => simp [dictLookup] at h
  | cons p rest ih =>
    obtain ⟨a, b⟩ := p
    by_cases hp : a = k
    · subst hp
      simp only [dictLookup, if_pos] at h
      simp only [Option.some.injEq] at h
      subst h
      exact List.mem_cons_self _ _
    · simp only [dictLookup, if_neg hp] at h
      exact List.mem_cons_of_mem _ (ih h)

theorem mem_dictInsert {α : Type} (d : List (Token × α)) (k : Token) (v : α)
    (p : Token × α) (h : p ∈ dictInsert d k v) : p = (k, v) ∨ p ∈ d := by
  induction d with
  | nil => simpa [dictInsert] using h
  | cons q rest ih =>
    obtain ⟨a, b⟩ := q
    by_cases hq : a = k
    · subst hq
      simp only [dictInsert, if_pos] at h
      rcases List.mem_cons.mp h with h | h
      · exact Or.inl h
      · exact Or.inr (List.mem_cons_of_mem _ h)
    · simp only [dictInsert, if_neg hq] at h
      rcases List.mem_cons.mp h with h | h
      · exact Or.inr (List.mem_cons.mpr (Or.inl h))
      · rcases ih h with h2 | h2
        · exact Or.inl h2
        · exact Or.inr (List.mem_cons.mpr (Or.inr h2))

/-! Lemmas on the specification fold specFirstMin. -/

theorem foldl_specMinStep_some (occs : List (Token × Nat)) (p0 : Token × Nat) :
    ∃ p, List.foldl specMinStep (some p0) occs = some p := by
  induction occs generalizing p0 with
  | nil => exact ⟨p0, rfl⟩
  | cons q rest ih =>
    by_cases h : q.2 < p0.2
    · simpa [List.foldl, specMinStep, h] using ih q
    · simpa [List.foldl, specMinStep, h] using ih p0

theorem specFirstMin_eq_none_iff (occs : List (Token × Nat)) :
    specFirstMin occs = none ↔ occs = [] := by
  cases occs with
  | nil => simp [specFirstMin]
  | cons q rest =>
    simp only [specFirstMin, List.foldl, specMinStep]
    obtain ⟨p, hp⟩ := foldl_specMinStep_some rest q
    simp [hp]

theorem specFirstMin_append_single (occs : List (Token × Nat))
    (q : Token × Nat) :
    specFirstMin (occs ++ [q]) = specMinStep (specFirstMin occs) q := by
  simp [specFirstMin, List.foldl_append]

theorem specFirstMin_spec (occs : List (Token × Nat)) (p : Token × Nat)
    (h : specFirstMin occs = some p) :
    ∃ l1 l2, occs = l1 ++ p :: l2 ∧ (∀ q ∈ l1, p.2 < q.2) ∧
      (∀ q ∈ l2, p.2 ≤ q.2) := by
  induction occs using List.reverseRecOn generalizing p with
  | nil => simp [specFirstMin] at h
  | append_singleton occs x ih =>
    rw [specFirstMin_append_single] at h
    rcases hprev : specFirstMin occs with _ | p2
    · rw [hprev] at h
      simp only [specMinStep, Option.some.injEq] at h
      subst h
      rw [specFirstMin_eq_none_iff] at hprev
      subst hprev
      exact ⟨[], [], rfl, by simp, by simp⟩
    · rw [hprev] at h
      obtain ⟨l1, l2, heq, hlt, hle⟩ := ih p2 hprev
      by_cases hx : x.2 < p2.2
      · simp only [specMinStep, hx, if_pos, Option.some.injEq] at h
        subst h
        refine ⟨occs, [], rfl, ?_, by simp⟩
        intro q hq
        rw [heq] at hq
        rcases List.mem_append.mp hq with hq1 | hq2
        · exact lt_trans hx (hlt q hq1)
        · rcases List.mem_cons.mp hq2 with hq3 | hq4
          · exact hq3 ▸ hx
          · exact lt_of_lt_of_le hx (hle q hq4)
      · simp only [specMinStep, hx, if_neg, Option.some.injEq, not_false_iff] at h
        subst h
        refine ⟨l1, l2 ++ [x], by simp [heq], hlt, ?_⟩
        intro q hq
        rcases List.mem_append.mp hq with hq1 | hq2
        · exact hle q hq1
        · rw [List.mem_singleton.mp hq2]
          omega

theorem specFirstMin_mem (occs : List (Token × Nat)) (p : Token × Nat)
    (h : specFirstMin occs = some p) : p ∈ occs := by
  obtain ⟨l1, l2, heq, -, -⟩ := specFirstMin_spec occs p h
  rw [heq]
  exact List.mem_append.mpr (Or.inr (List.mem_cons_self p l2))

theorem specFirstMin_le (occs : List (Token × Nat)) (p : Token × Nat)
    (h : specFirstMin occs = some p) : ∀ q ∈ occs, p.2 ≤ q.2 := by
  obtain ⟨l1, l2, heq, hlt, hle⟩ := specFirstMin_spec occs p h
  intro q hq
  rw [heq] at hq
  rcases List.mem_append.mp hq with hq1 | hq2
  · exact le_of_lt (hlt q hq1)
  · rcases List.mem_cons.mp hq2 with hq3 | hq4
    · exact hq3 ▸ le_refl p.2
    · exact hle q hq4

/-! The deduplication loop as a fold over flattened triples. -/

theorem dedupList_eq_dedupTriples (name : Token) (entries : List (Token × Nat)) :
    ∀ st, dedupList name entries st =
      dedupTriples st (entries.map (fun q => (name, q.1, q.2))) := by
  induction entries with
  | nil => intro st; rfl
  | cons e rest ih =>
    intro st
    simp only [dedupList, List.map_cons, dedupTriples]
    rcases dedupStep st name e.1 e.2 with _ | st2
    · rfl
    · exact ih st2

theorem dedupTriples_append (a b : List (Token × Token × Nat)) :
    ∀ st, dedupTriples st (a ++ b) =
      (dedupTriples st a).bind (fun st2 => dedupTriples st2 b) := by
  induction a with
  | nil => intro st; rfl
  | cons x rest ih =>
    intro st
    simp only [List.cons_append, dedupTriples]
    rcases dedupStep st x.1 x.2.1 x.2.2 with _ | st2
    · rfl
    · exact ih st2

theorem buildMinIndex_eq_dedupTriples
    (freq_lists : List (Token × List (Token × Nat))) :
    ∀ st, buildMinIndex freq_lists st = dedupTriples st (triples freq_lists) := by
  induction freq_lists with
  | nil => intro st; rfl
  | cons p rest ih =>
    intro st
    simp only [buildMinIndex, triples, dedupTriples_append,
      dedupList_eq_dedupTriples, Except.bind]
    split
    · rename_i e heq
      simp [heq]
    · rename_i st2 heq
      simp [heq, ih st2]

theorem occOf_append (t : Token) (a b : List (Token × Token × Nat)) :
    occOf t (a ++ b) = occOf t a ++ occOf t b := by
  simp [occOf, List.filterMap_append]

theorem occOf_map_entries (t n : Token) (d : List (Token × Nat))
    (hk : (d.map Prod.fst).Nodup) :
    occOf t (d.map (fun q => (n, q.1, q.2))) =
      ((dictLookup d t).map (fun r => (n, r))).toList := by
  induction d with
  | nil => simp [occOf, dictLookup]
  | cons q rest ih =>
    rw [List.map_cons, List.nodup_cons] at hk
    obtain ⟨hq, hrest⟩ := hk
    by_cases hqt : q.1 = t
    · have hnone : List.filterMap
          (fun x => if x.2.1 = t then some (x.1, x.2.2) else none)
          (rest.map (fun p => (n, p.1, p.2))) = [] := by
        rw [List.filterMap_eq_nil_iff]
        intro x hx
        obtain ⟨y, hy, rfl⟩ := List.mem_map.mp hx
        have hne : y.1 ≠ t := by
          intro hc
          rw [← hqt] at hc
          exact hq (List.mem_map.mpr ⟨y, hy, hc⟩)
        simp [hne]
      simp only [occOf, List.map_cons, List.filterMap_cons]
      simp [hqt, hnone, dictLookup]
    · simp only [occOf, List.map_cons, List.filterMap_cons]
      have ihr := ih hrest
      simp only [occOf] at ihr
      simp [hqt, dictLookup, ihr]

theorem specOccurrences_eq_occOf (t : Token)
    (freq_lists : List (Token × List (Token × Nat)))
    (hk : ∀ p ∈ freq_lists, (p.2.map Prod.fst).Nodup) :
    specOccurrences t freq_lists = occOf t (triples freq_lists) := by
  induction freq_lists with
  | nil => simp [specOccurrences, occOf, triples]
  | cons p rest ih =>
    have hp := hk p (List.mem_cons_self p rest)
    have hrest : ∀ q ∈ rest, (q.2.map Prod.fst).Nodup :=
      fun q hq => hk q (List.mem_cons_of_mem p hq)
    simp only [triples]
    rw [occOf_append, occOf_map_entries t p.1 p.2 hp, ← ih hrest]
    simp only [specOccurrences, List.filterMap_cons]
    rcases hl : dictLookup p.2 t with _ | r
    · simp [hl]
    · simp [hl]

theorem mem_triples_name (freq_lists : List (Token × List (Token × Nat)))
    (x : Token × Token × Nat) (hx : x ∈ triples freq_lists) :
    x.1 ∈ freq_lists.map Prod.fst := by
  induction freq_lists with
  | nil => simp [triples] at hx
  | cons p rest ih =>
    simp only [triples, List.mem_append] at hx
    rcases hx with hx | hx
    · simp only [List.mem_map] at hx
      obtain ⟨q, -, rfl⟩ := hx
      simp
    · simp [ih hx]

theorem triples_pairwise (freq_lists : List (Token × List (Token × Nat)))
    (hn : (freq_lists.map Prod.fst).Nodup)
    (hk : ∀ p ∈ freq_lists, (p.2.map Prod.fst).Nodup) :
    (triples freq_lists).Pairwise (fun a b => a.2.1 = b.2.1 → a.1 ≠ b.1) := by
  induction freq_lists with
  | nil => simp [triples]
  | cons p rest ih =>
    simp only [List.map_cons, List.nodup_cons] at hn
    obtain ⟨hp_notin, hn_rest⟩ := hn
    have hp := hk p (List.mem_cons_self p rest)
    have hrest : ∀ q ∈ rest, (q.2.map Prod.fst).Nodup :=
      fun q hq => hk q (List.mem_cons_of_mem p hq)
    simp only [triples, List.pairwise_append]
    refine ⟨?_, ih hn_rest hrest, ?_⟩
    · rw [List.pairwise_map]
      have hpair : p.2.Pairwise (fun a b => a.1 ≠ b.1) :=
        List.pairwise_map.mp hp
      exact hpair.imp (fun h hc => absurd hc h)
    · intro a ha b hb _
      have ha1 : a.1 = p.1 := by
        simp only [List.mem_map] at ha
        obtain ⟨q, -, rfl⟩ := ha
        rfl
      have hb1 := mem_triples_name rest b hb
      rw [ha1]
      intro hc
      exact hp_notin (hc ▸ hb1)

/-! The invariant of the deduplication fold: the index records, for every
token, exactly the record produced by folding the spec update policy over
the occurrences seen so far. -/

theorem dedupTriples_spec (ts : List (Token × Token × Nat)) :
    ∀ (st : MinIndex) (occ0 : Token → List (Token × Nat)),
    (∀ t, dictLookup st.minimum_rank t = (specFirstMin (occ0 t)).map Prod.snd) →
    (∀ t, dictLookup st.minimum_name t = (specFirstMin (occ0 t)).map Prod.fst) →
    (∀ x ∈ ts, ∀ q ∈ occ0 x.2.1, q.1 ≠ x.1) →
    ts.Pairwise (fun a b => a.2.1 = b.2.1 → a.1 ≠ b.1) →
    ∃ st2, dedupTriples st ts = Except.ok st2 ∧
      (∀ t, dictLookup st2.minimum_rank t =
        (specFirstMin (occ0 t ++ occOf t ts)).map Prod.snd) ∧
      (∀ t, dictLookup st2.minimum_name t =
        (specFirstMin (occ0 t ++ occOf t ts)).map Prod.fst) := by
  induction ts with
  | nil =>
    intro st occ0 hr hn _ _
    refine ⟨st, rfl, fun t => ?_, fun t => ?_⟩
    · simpa [occOf] using hr t
    · simpa [occOf] using hn t
  | cons x rest ih =>
    rintro st occ0 hr hn hdisj hpw
    obtain ⟨n, tk, r⟩ := x
    obtain ⟨hhead, htail⟩ := List.pairwise_cons.mp hpw
    have hocc : ∀ t, occ0 t ++ occOf t ((n, tk, r) :: rest) =
        (occ0 t ++ if tk = t then [(n, r)] else []) ++ occOf t rest := by
      intro t
      by_cases htk : tk = t <;>
        simp [occOf, List.filterMap_cons, htk, List.append_assoc]
    have hstep : ∃ st1, dedupStep st n tk r = Except.ok st1 ∧
        (∀ t, dictLookup st1.minimum_rank t =
          (specFirstMin (occ0 t ++ if tk = t then [(n, r)] else [])).map
            Prod.snd) ∧
        (∀ t, dictLookup st1.minimum_name t =
          (specFirstMin (occ0 t ++ if tk = t then [(n, r)] else [])).map
            Prod.fst) := by
      rcases hmin : specFirstMin (occ0 tk) with _ | ⟨o, mr⟩
      · have hrtk : dictLookup st.minimum_rank tk = none := by
          rw [hr tk, hmin]; rfl
        have hntk : dictLookup st.minimum_name tk = none := by
          rw [hn tk, hmin]; rfl
        have hempty : occ0 tk = [] := (specFirstMin_eq_none_iff _).mp hmin
        refine ⟨⟨dictInsert st.minimum_rank tk r,
            dictInsert st.minimum_name tk n⟩,
          by simp [dedupStep, hrtk, hntk], fun t => ?_, fun t => ?_⟩
        · by_cases ht : t = tk
          · subst ht
            simp [dictLookup_dictInsert_self, hempty, specFirstMin, specMinStep]
          · have htk2 : ¬ tk = t := fun hh => ht hh.symm
            simp [dictLookup_dictInsert_ne _ _ _ _ ht, hr t, htk2]
        · by_cases ht : t = tk
          · subst ht
            simp [dictLookup_dictInsert_self, hempty, specFirstMin, specMinStep]
          · have htk2 : ¬ tk = t := fun hh => ht hh.symm
            simp [dictLookup_dictInsert_ne _ _ _ _ ht, hn t, htk2]
      · have hrtk : dictLookup st.minimum_rank tk = some mr := by
          rw [hr tk, hmin]; rfl
        have hntk : dictLookup st.minimum_name tk = some o := by
          rw [hn tk, hmin]; rfl
        have hone : o ≠ n :=
          hdisj (n, tk, r) (List.mem_cons_self _ _) (o, mr)
            (specFirstMin_mem _ _ hmin)
        by_cases hlt : r < mr
        · refine ⟨⟨dictInsert st.minimum_rank tk r,
              dictInsert st.minimum_name tk n⟩,
            by simp [dedupStep, hrtk, hntk, hone, hlt], fun t => ?_, fun t => ?_⟩
          · by_cases ht : t = tk
            · subst ht
              rw [dictLookup_dictInsert_self, if_pos rfl,
                specFirstMin_append_single, hmin]
              simp [specMinStep, hlt]
            · have htk2 : ¬ tk = t := fun hh => ht hh.symm
              simp [dictLookup_dictInsert_ne _ _ _ _ ht, hr t, htk2]
          · by_cases ht : t = tk
            · subst ht
              rw [dictLookup_dictInsert_self, if_pos rfl,
                specFirstMin_append_single, hmin]
              simp [specMinStep, hlt]
            · have htk2 : ¬ tk = t := fun hh => ht hh.symm
              simp [dictLookup_dictInsert_ne _ _ _ _ ht, hn t, htk2]
        · refine ⟨st, by simp [dedupStep, hrtk, hntk, hone, hlt],
            fun t => ?_, fun t => ?_⟩
          · by_cases ht : t = tk
            · subst ht
              rw [if_pos rfl, specFirstMin_append_single, hmin, hrtk]
              simp [specMinStep, hlt]
            · have htk2 : ¬ tk = t := fun hh => ht hh.symm
              simp [hr t, htk2]
          · by_cases ht : t = tk
            · subst ht
              rw [if_pos rfl, specFirstMin_append_single, hmin, hntk]
              simp [specMinStep, hlt]
            · have htk2 : ¬ tk = t := fun hh => ht hh.symm
              simp [hn t, htk2]
    obtain ⟨st1, hst1, hr1, hn1⟩ := hstep
    have hdisj2 : ∀ x ∈ rest,
        ∀ q ∈ (occ0 x.2.1 ++ if tk = x.2.1 then [(n, r)] else []),
          q.1 ≠ x.1 := by
      intro x hx q hq
      rcases List.mem_append.mp hq with hq1 | hq2
      · exact hdisj x (List.mem_cons_of_mem _ hx) q hq1
      · by_cases htk : tk = x.2.1
        · rw [if_pos htk] at hq2
          obtain rfl := List.mem_singleton.mp hq2
          exact hhead x hx htk
        · rw [if_neg htk] at hq2
          simp at hq2
    obtain ⟨st2, hrun, hr2, hn2⟩ :=
      ih st1 (fun t => occ0 t ++ if tk = t then [(n, r)] else [])
        hr1 hn1 hdisj2 htail
    refine ⟨st2, ?_, fun t => ?_, fun t => ?_⟩
    · simp [dedupTriples, hst1, hrun]
    · rw [hocc t]
      exact hr2 t
    · rw [hocc t]
      exact hn2 t

/-! Claim theorems that need no machinery beyond the definitions. -/

/-- C5: the rare-and-short rule of the loader drops a token exactly when its
length is at most 2 or its rank is at least ten to the token length, and
at the boundary a length-3 token is kept at rank 999 and dropped at
rank 1000. -/
theorem is_rare_and_short_characterization :
    (∀ (token : Token) (rank : Nat),
      is_rare_and_short token rank = true ↔
        token.length ≤ 2 ∨ 10 ^ token.length ≤ rank) ∧
    is_rare_and_short ("abc") 999 = false ∧
    is_rare_and_short ("abc") 1000 = true := by
  refine ⟨fun token rank => ?_, by decide, by decide⟩
  simp [is_rare_and_short, Bool.or_eq_true, decide_eq_true_iff, ge_iff_le,
    or_comm]

/-- C4: the brute force dominance heuristic excludes a token exactly when its
length is at least 5, its rank at least 1000, its length-minus-one prefix
is present in the global minimum rank index at some rank srank, and the
token rank exceeds srank times 22 plus 1000; in particular a token at
rank 23500 over a rank-1 prefix is excluded and one at rank 1020 is
retained. -/
theorem is_brutal_better_characterization :
    (∀ (token : Token) (rank : Nat) (minimum_rank : List (Token × Nat)),
      is_brutal_better token rank minimum_rank = true ↔
        5 ≤ token.length ∧ 1000 ≤ rank ∧
          ∃ srank, dictLookup minimum_rank (token.dropRight 1) = some srank ∧
            srank * 22 + 1000 < rank) ∧
    is_brutal_better ("alphas") 23500 [(("alpha" : Token), 1)] = true ∧
    is_brutal_better ("alphas") 1020 [(("alpha" : Token), 1)] = false := by
  refine ⟨fun token rank minimum_rank => ?_, by decide, by decide⟩
  unfold is_brutal_better MIN_GUESSES_BEFORE_GROWING_SEQUENCE
  by_cases h1 : rank < 1000
  · rw [if_pos h1]
    constructor
    · intro h
      exact absurd h (by simp)
    · rintro ⟨-, h2, -⟩
      omega
  · rw [if_neg h1]
    by_cases h2 : token.length < 5
    · rw [if_pos h2]
      constructor
      · intro h
        exact absurd h (by simp)
      · rintro ⟨h3, -, -⟩
        omega
    · rw [if_neg h2]
      rcases hl : dictLookup minimum_rank (token.dropRight 1) with _ | srank
      · simp [hl]
      · simp [hl]
        omega

/-- C2: on a source list carrying the same token on two lines at ranks 1 and
2, the loader silently keeps only the last occurrence and the whole run
completes without any error, so the engine does not abort on an
intra-list duplicate. -/
theorem duplicate_token_silently_merged :
    parseLines exDupLines = Except.ok [(("cat" : Token), 2)] ∧
    parse_frequency_lists c2dicts [(("names" : Token), exDupLines)] =
      Except.ok [(("names" : Token), [(("cat" : Token), 2)])] ∧
    filter_frequency_lists c2dicts [(("names" : Token), [(("cat" : Token), 2)])] =
      Except.ok [(("names" : Token), [("cat" : Token)])] :=
  ⟨rfl, rfl, rfl⟩

/-! Loader lemmas. -/

theorem parseLine_eq (freq : List (Token × Nat)) (rank : Nat) (line : String) :
    parseLine freq rank line =
      match pySplit line with
      | [] => Except.error RunError.indexError
      | token :: _ =>
        if survivesLoad token rank then Except.ok (dictInsert freq token rank)
        else Except.ok freq := by
  simp only [parseLine, survivesLoad]
  rcases pySplit line with _ | ⟨token, rest2⟩
  · rfl
  · by_cases h1 : has_only_one_char token
    · simp [h1]
    · by_cases h2 : has_comma_or_double_quote token
      · simp [h1, h2]
      · by_cases h3 : is_rare_and_short token rank
        · simp [h1, h2, h3]
        · simp [h1, h2, h3]

theorem splitWords_ne_nil (cs : List Char) :
    ∀ acc, acc ≠ [] → splitWords acc cs ≠ [] := by
  induction cs with
  | nil =>
    intro acc hacc
    obtain ⟨a, as, rfl⟩ := List.exists_cons_of_ne_nil hacc
    simp [splitWords]
  | cons c rest ih =>
    intro acc hacc
    obtain ⟨a, as, rfl⟩ := List.exists_cons_of_ne_nil hacc
    simp only [splitWords]
    by_cases hw : c.isWhitespace
    · simp [hw]
    · simp only [hw, if_neg, Bool.false_eq_true, not_false_iff]
      exact ih (c :: a :: as) (by simp)

theorem splitWords_nil_iff (cs : List Char) :
    splitWords [] cs = [] ↔ ∀ c ∈ cs, c.isWhitespace := by
  induction cs with
  | nil => simp [splitWords]
  | cons c rest ih =>
    simp only [splitWords]
    by_cases hw : c.isWhitespace
    · simp [hw, ih]
    · refine iff_of_false ?_ ?_
      · simpa [hw] using splitWords_ne_nil rest [c] (by simp)
      · intro hall
        exact hw (hall c (List.mem_cons_self c rest))

theorem pySplit_nil_iff (s : String) :
    pySplit s = [] ↔ ∀ c ∈ s.data, c.isWhitespace := by
  rw [pySplit, List.map_eq_nil_iff]
  exact splitWords_nil_iff s.data

theorem parseLinesFrom_ok_iff (lines : List String) :
    ∀ (freq : List (Token × Nat)) (rank : Nat),
      (∃ d, parseLinesFrom freq rank lines = Except.ok d) ↔
        ∀ line ∈ lines, pySplit line ≠ [] := by
  induction lines with
  | nil => intro freq rank; simp [parseLinesFrom]
  | cons line rest ih =>
    intro freq rank
    rcases hsplit : pySplit line with _ | ⟨token, r2⟩
    · refine iff_of_false ?_ ?_
      · rintro ⟨d, hd⟩
        simp only [parseLinesFrom, parseLine_eq, hsplit] at hd
        exact Except.noConfusion hd
      · intro hall
        exact hall line (List.mem_cons_self _ _) hsplit
    · simp only [parseLinesFrom, parseLine_eq, hsplit]
      by_cases hs : survivesLoad token rank = true
      · simp only [hs, if_true]
        rw [ih]
        simp [hsplit]
      · rw [Bool.not_eq_true] at hs
        simp only [hs, Bool.false_eq_true, if_false]
        rw [ih]
        simp [hsplit]

theorem parseLinesFrom_error (lines : List String) :
    ∀ (freq : List (Token × Nat)) (rank : Nat),
      (∃ line ∈ lines, pySplit line = []) →
      parseLinesFrom freq rank lines = Except.error RunError.indexError := by
  induction lines with
  | nil => intro freq rank h; simp at h
  | cons line rest ih =>
    intro freq rank h
    rcases hsplit : pySplit line with _ | ⟨token, r2⟩
    · simp [parseLinesFrom, parseLine_eq, hsplit]
    · have hrest : ∃ l ∈ rest, pySplit l = [] := by
        rcases h with ⟨l, hl, hpl⟩
        rcases List.mem_cons.mp hl with rfl | hl2
        · rw [hsplit] at hpl
          exact absurd hpl (by simp)
        · exact ⟨l, hl2, hpl⟩
      simp only [parseLinesFrom, parseLine_eq, hsplit]
      by_cases hs : survivesLoad token rank = true
      · simp only [hs, if_true]
        exact ih _ _ hrest
      · rw [Bool.not_eq_true] at hs
        simp only [hs, Bool.false_eq_true, if_false]
        exact ih _ _ hrest

/-- C8: the loader is not total over arbitrary text lines: a run succeeds
exactly when every line has at least one whitespace-delimited field, a line
whose split is empty raises IndexError, and every empty or all-whitespace
line splits to the empty field list. -/
theorem loader_requires_nonempty_lines (lines : List String) :
    ((∃ d, parseLines lines = Except.ok d) ↔
      ∀ line ∈ lines, pySplit line ≠ []) ∧
    ((∃ line ∈ lines, pySplit line = []) →
      parseLines lines = Except.error RunError.indexError) ∧
    (∀ s : String, (∀ c ∈ s.data, c.isWhitespace) → pySplit s = []) := by
  refine ⟨parseLinesFrom_ok_iff lines [] 1, parseLinesFrom_error lines [] 1, ?_⟩
  intro s hs
  exact (pySplit_nil_iff s).mpr hs

theorem loader_requires_nonempty_lines_witness :
    parseLines [(" ab 12" : String), ("  " : String)] =
      Except.error RunError.indexError :=
  (loader_requires_nonempty_lines [" ab 12", "  "]).2.1
    ⟨"  ", by decide, by decide⟩

theorem parseLinesFrom_lookup (lines : List String) :
    ∀ (freq : List (Token × Nat)) (rank : Nat) (d : List (Token × Nat)),
      parseLinesFrom freq rank lines = Except.ok d →
      ∀ t, dictLookup d t = lastKeptRankFrom (dictLookup freq t) t rank lines := by
  induction lines with
  | nil =>
    intro freq rank d h t
    simp only [parseLinesFrom] at h
    injection h with h2
    subst h2
    rfl
  | cons line rest ih =>
    intro freq rank d h t
    simp only [parseLinesFrom, parseLine_eq] at h
    rcases hsplit : pySplit line with _ | ⟨token, r2⟩
    · simp only [hsplit] at h
      exact Except.noConfusion h
    · simp only [hsplit] at h
      simp only [lastKeptRankFrom, hsplit]
      by_cases hs : survivesLoad token rank = true
      · simp only [hs, if_true] at h
        by_cases ht : token = t
        · subst ht
          rw [if_pos ⟨rfl, hs⟩]
          have := ih _ _ _ h token
          rwa [dictLookup_dictInsert_self] at this
        · rw [if_neg (fun hc => ht hc.1)]
          have := ih _ _ _ h t
          rwa [dictLookup_dictInsert_ne _ _ _ _ (fun hc => ht hc.symm)] at this
      · rw [Bool.not_eq_true] at hs
        simp only [hs, Bool.false_eq_true, if_false] at h
        rw [if_neg (fun hc => by rw [hs] at hc; exact Bool.noConfusion hc.2)]
        exact ih _ _ _ h t

/-- C9: when the same token occurs on several lines of one source file and
survives the early exclusion rules, the loaded mapping records the rank of
its last surviving occurrence, silently overwriting earlier ones: the
lookup of any token in the loader result equals the rank of its last kept
occurrence. -/
theorem loader_keeps_last_occurrence (lines : List String)
    (d : List (Token × Nat)) (t : Token)
    (h : parseLines lines = Except.ok d) :
    dictLookup d t = lastKeptRank t lines := by
  have h2 := parseLinesFrom_lookup lines [] 1 d h t
  simpa [lastKeptRank, dictLookup] using h2

theorem loader_keeps_last_occurrence_witness :
    parseLines exLinesC9 = Except.ok [(("cat" : Token), 3), (("dog" : Token), 2)] ∧
    dictLookup [(("cat" : Token), 3), (("dog" : Token), 2)] ("cat") =
      lastKeptRank ("cat") exLinesC9 ∧
    lastKeptRank ("cat") exLinesC9 = some 3 :=
  ⟨rfl, loader_keeps_last_occurrence exLinesC9 _ _ rfl, rfl⟩

/-! Packer lemmas. -/

theorem pack_none (pairs : List (Token × Nat)) :
    pack pairs none = List.insertionSort rankLE pairs := rfl

theorem pack_some (pairs : List (Token × Nat)) (c : Nat) :
    pack pairs (some c) =
      if c ≠ 0 ∧ (List.insertionSort rankLE pairs).length > c then
        (List.insertionSort rankLE pairs).take c
      else List.insertionSort rankLE pairs := rfl

theorem pack_sorted (pairs : List (Token × Nat)) (cutoff : Option Nat) :
    List.Sorted rankLE (pack pairs cutoff) := by
  have hs := List.sorted_insertionSort rankLE pairs
  rcases cutoff with _ | c
  · exact hs
  · rw [pack_some]
    split
    · exact List.Pairwise.sublist (List.take_sublist _ _) hs
    · exact hs

theorem pack_take (pairs : List (Token × Nat)) (cutoff : Option Nat) :
    pack pairs cutoff =
      (List.insertionSort rankLE pairs).take (pack pairs cutoff).length := by
  rcases cutoff with _ | c
  · rw [pack_none, List.take_length]
  · rw [pack_some]
    split
    · rename_i hcond
      rw [List.length_take, Nat.min_eq_left (Nat.le_of_lt hcond.2)]
    · rw [List.take_length]

theorem pack_length_le (pairs : List (Token × Nat)) (c : Nat) (hc : 0 < c) :
    (pack pairs (some c)).length ≤ c := by
  rw [pack_some]
  split
  · rename_i hcond
    rw [List.length_take]
    exact Nat.min_le_left _ _
  · rename_i hcond
    push_neg at hcond
    exact hcond (Nat.pos_iff_ne_zero.mp hc)

theorem mem_pack (pairs : List (Token × Nat)) (cutoff : Option Nat)
    (x : Token × Nat) (hx : x ∈ pack pairs cutoff) : x ∈ pairs := by
  rcases cutoff with _ | c
  · rw [pack_none] at hx
    exact (List.mem_insertionSort rankLE).mp hx
  · rw [pack_some] at hx
    split at hx
    · exact (List.mem_insertionSort rankLE).mp (List.take_subset _ _ hx)
    · exact (List.mem_insertionSort rankLE).mp hx

theorem pack_le_dropped (pairs : List (Token × Nat)) (cutoff : Option Nat) :
    ∀ x ∈ pack pairs cutoff,
      ∀ y ∈ (List.insertionSort rankLE pairs).drop (pack pairs cutoff).length,
        x.2 ≤ y.2 := by
  intro x hx y hy
  have hs : List.Pairwise rankLE
      ((List.insertionSort rankLE pairs).take (pack pairs cutoff).length ++
        (List.insertionSort rankLE pairs).drop (pack pairs cutoff).length) := by
    rw [List.take_append_drop]
    exact List.sorted_insertionSort rankLE pairs
  have hcross := (List.pairwise_append.mp hs).2.2
  refine hcross x ?_ y hy
  rw [← pack_take]
  exact hx

theorem mem_survivors (name : Token) (entries : List (Token × Nat))
    (idx : MinIndex) (x : Token × Nat) (hx : x ∈ survivors name entries idx) :
    x ∈ entries ∧ dictLookup idx.minimum_name x.1 = some name ∧
      is_brutal_better x.1 x.2 idx.minimum_rank = false := by
  simp only [survivors, List.mem_filter] at hx
  obtain ⟨h1, h2⟩ := hx
  rw [Bool.and_eq_true, decide_eq_true_iff, Bool.not_eq_true'] at h2
  exact ⟨h1, h2.1, h2.2⟩

theorem packLists_mem (dicts : List (Token × Option Nat)) (idx : MinIndex) :
    ∀ (fls : List (Token × List (Token × Nat))) (res : List (Token × List Token)),
      packLists dicts idx fls = Except.ok res →
      ∀ q ∈ res, ∃ entries cap, (q.1, entries) ∈ fls ∧
        dictLookup dicts q.1 = some cap ∧
        q.2 = (pack (survivors q.1 entries idx) cap).map Prod.fst := by
  intro fls
  induction fls with
  | nil =>
    intro res h q hq
    simp only [packLists] at h
    injection h with h2
    subst h2
    simp at hq
  | cons p rest ih =>
    intro res h q hq
    simp only [packLists] at h
    split at h
    · exact Except.noConfusion h
    · rename_i cutoff hc
      split at h
      · exact Except.noConfusion h
      · rename_i res2 hr
        injection h with h2
        subst h2
        rcases List.mem_cons.mp hq with hq1 | hq2
        · subst hq1
          refine ⟨p.2, cutoff, ?_, hc, rfl⟩
          simp
        · obtain ⟨entries, cap, hmem, hcap, heq⟩ := ih res2 hr q hq2
          exact ⟨entries, cap, List.mem_cons_of_mem p hmem, hcap, heq⟩

theorem parse_fl_mem (dicts : List (Token × Option Nat)) :
    ∀ (files : List (Token × List String))
      (fl : List (Token × List (Token × Nat))),
      parse_frequency_lists dicts files = Except.ok fl →
      ∀ q ∈ fl, ∃ lines, (q.1, lines) ∈ files ∧
        parseLines lines = Except.ok q.2 := by
  intro files
  induction files with
  | nil =>
    intro fl h q hq
    simp only [parse_frequency_lists] at h
    injection h with h2
    subst h2
    simp at hq
  | cons f rest ih =>
    intro fl h q hq
    simp only [parse_frequency_lists] at h
    split at h
    · split at h
      · exact Except.noConfusion h
      · rename_i d hd
        split at h
        · exact Except.noConfusion h
        · rename_i fl2 hfl2
          injection h with h2
          subst h2
          rcases List.mem_cons.mp hq with hq1 | hq2
          · subst hq1
            refine ⟨f.2, ?_, hd⟩
            simp
          · obtain ⟨lines, hmem, hpl⟩ := ih fl2 hfl2 q hq2
            exact ⟨lines, List.mem_cons_of_mem f hmem, hpl⟩
    · obtain ⟨lines, hmem, hpl⟩ := ih fl h q hq
      exact ⟨lines, List.mem_cons_of_mem f hmem, hpl⟩

/-! Character safety of the loader and the whole pipeline. -/

theorem survivesLoad_no_comma (token : Token) (rank : Nat)
    (h : survivesLoad token rank = true) :
    has_comma_or_double_quote token = false := by
  simp only [survivesLoad, Bool.and_eq_true, Bool.not_eq_true'] at h
  exact h.1.2

theorem parseLinesFrom_no_comma (lines : List String) :
    ∀ (freq : List (Token × Nat)) (rank : Nat) (d : List (Token × Nat)),
      (∀ p ∈ freq, has_comma_or_double_quote p.1 = false) →
      parseLinesFrom freq rank lines = Except.ok d →
      ∀ p ∈ d, has_comma_or_double_quote p.1 = false := by
  induction lines with
  | nil =>
    intro freq rank d hfreq h p hp
    simp only [parseLinesFrom] at h
    injection h with h2
    subst h2
    exact hfreq p hp
  | cons line rest ih =>
    intro freq rank d hfreq h p hp
    simp only [parseLinesFrom, parseLine_eq] at h
    rcases hsplit : pySplit line with _ | ⟨token, r2⟩
    · simp only [hsplit] at h
      exact Except.noConfusion h
    · simp only [hsplit] at h
      by_cases hs : survivesLoad token rank = true
      · simp only [hs, if_true] at h
        have hfreq2 : ∀ p2 ∈ dictInsert freq token rank,
            has_comma_or_double_quote p2.1 = false := by
          intro p2 hp2
          rcases mem_dictInsert _ _ _ _ hp2 with h4 | h4
          · rw [h4]
            exact survivesLoad_no_comma token rank hs
          · exact hfreq p2 h4
        exact ih _ _ _ hfreq2 h p hp
      · rw [Bool.not_eq_true] at hs
        simp only [hs, Bool.false_eq_true, if_false] at h
        exact ih _ _ _ hfreq h p hp

/-- C7: every token containing a comma or a double quote is dropped by the
loader, so it is absent from the loaded mapping, and consequently no token
of any final output list of the whole pipeline contains either
character. -/
theorem char_safety_end_to_end :
    (∀ (lines : List String) (d : List (Token × Nat)) (t : Token),
      parseLines lines = Except.ok d → has_comma_or_double_quote t = true →
      dictLookup d t = none) ∧
    (∀ (dicts : List (Token × Option Nat)) (files : List (Token × List String))
      (fl : List (Token × List (Token × Nat))) (res : List (Token × List Token)),
      parse_frequency_lists dicts files = Except.ok fl →
      filter_frequency_lists dicts fl = Except.ok res →
      ∀ name out, (name, out) ∈ res → ∀ t ∈ out,
        has_comma_or_double_quote t = false) := by
  constructor
  · intro lines d t h hcomma
    rcases hl : dictLookup d t with _ | v
    · rfl
    · exfalso
      have hnc := parseLinesFrom_no_comma lines [] 1 d (by simp) h (t, v)
        (mem_of_dictLookup _ _ _ hl)
      rw [hcomma] at hnc
      exact Bool.noConfusion hnc
  · intro dicts files fl res hp hf name out hmem t ht
    rcases hb : buildMinIndex fl ⟨[], []⟩ with e | idx
    · simp only [filter_frequency_lists, hb] at hf
      exact Except.noConfusion hf
    · simp only [filter_frequency_lists, hb] at hf
      obtain ⟨entries, cap, hfl, hcap, hout⟩ :=
        packLists_mem dicts idx fl res hf (name, out) hmem
      have hout2 : out = (pack (survivors name entries idx) cap).map Prod.fst :=
        hout
      rw [hout2] at ht
      obtain ⟨x, hx, rfl⟩ := List.mem_map.mp ht
      have hsurv := mem_pack _ _ _ hx
      have hment := (mem_survivors _ _ _ _ hsurv).1
      obtain ⟨lines, hfiles, hpl⟩ := parse_fl_mem dicts files fl hp (name, entries) hfl
      exact parseLinesFrom_no_comma lines [] 1 entries (by simp) hpl x hment

/-- Lines whose first token carries a comma, used by the C7 witness. -/
def exLinesC7 : List String := ["ab,c 1", "abc 2"]

theorem char_safety_end_to_end_witness :
    dictLookup [(("abc" : Token), 2)] ("ab,c") = none ∧
    has_comma_or_double_quote ("abc") = false :=
  ⟨char_safety_end_to_end.1 exLinesC7 [(("abc" : Token), 2)] ("ab,c") rfl
      (by decide),
   char_safety_end_to_end.2 c2dicts [(("names" : Token), exLinesC7)]
      [(("names" : Token), [(("abc" : Token), 2)])]
      [(("names" : Token), [("abc" : Token)])] rfl rfl ("names")
      [("abc" : Token)] (by decide) ("abc") (by decide)⟩

/-- C1: the global minimum rank index records, for every token, the
numerically lowest rank over all its occurrences across the loaded lists
together with the name of the list achieving it, where a strictly lower
rank replaces the recorded pair and an equal rank from a later list does
not: the recorded pair, produced by folding the spec update policy over
the occurrences in processing order, is the first occurrence achieving the
minimum, every earlier occurrence being strictly worse and every later one
no better. -/
theorem global_dedup_records_lowest_rank_first_owner
    (freq_lists : List (Token × List (Token × Nat)))
    (hn : (freq_lists.map Prod.fst).Nodup)
    (hk : ∀ p ∈ freq_lists, (p.2.map Prod.fst).Nodup) :
    ∃ idx, buildMinIndex freq_lists ⟨[], []⟩ = Except.ok idx ∧
      ∀ t, dictLookup idx.minimum_rank t =
          (specFirstMin (specOccurrences t freq_lists)).map Prod.snd ∧
        dictLookup idx.minimum_name t =
          (specFirstMin (specOccurrences t freq_lists)).map Prod.fst ∧
        ∀ p, specFirstMin (specOccurrences t freq_lists) = some p →
          ∃ l1 l2, specOccurrences t freq_lists = l1 ++ p :: l2 ∧
            (∀ q ∈ l1, p.2 < q.2) ∧ (∀ q ∈ l2, p.2 ≤ q.2) := by
  obtain ⟨st2, hrun, hr2, hn2⟩ :=
    dedupTriples_spec (triples freq_lists) ⟨[], []⟩ (fun _ => [])
      (fun t => rfl) (fun t => rfl)
      (fun x _ q hq => absurd hq (List.not_mem_nil q))
      (triples_pairwise freq_lists hn hk)
  refine ⟨st2, ?_, fun t => ⟨?_, ?_, fun p hp => specFirstMin_spec _ p hp⟩⟩
  · rw [buildMinIndex_eq_dedupTriples]
    exact hrun
  · rw [specOccurrences_eq_occOf t freq_lists hk]
    simpa using hr2 t
  · rw [specOccurrences_eq_occOf t freq_lists hk]
    simpa using hn2 t

theorem global_dedup_records_lowest_rank_first_owner_witness :
    ∃ idx, buildMinIndex c1fl ⟨[], []⟩ = Except.ok idx ∧
      ∀ t, dictLookup idx.minimum_rank t =
          (specFirstMin (specOccurrences t c1fl)).map Prod.snd ∧
        dictLookup idx.minimum_name t =
          (specFirstMin (specOccurrences t c1fl)).map Prod.fst ∧
        ∀ p, specFirstMin (specOccurrences t c1fl) = some p →
          ∃ l1 l2, specOccurrences t c1fl = l1 ++ p :: l2 ∧
            (∀ q ∈ l1, p.2 < q.2) ∧ (∀ q ∈ l2, p.2 ≤ q.2) :=
  global_dedup_records_lowest_rank_first_owner c1fl (by decide) (by decide)

/-- C3 counterexample: the token abcdef appears in the loaded mappings of
both lists of c3fl, with its lowest rank in list a, yet the heuristic
filter removes it from the owning list as well, so no list at all retains
it in the final output: the claim that exactly one list retains every
token appearing in two or more lists fails on this input. -/
theorem exactly_one_owner_retains_refuted :
    dictLookup c3fl ("a") = some [(("abcde" : Token), 1), (("abcdef" : Token), 5000)] ∧
    dictLookup c3fl ("b") = some [(("abcdef" : Token), 6000)] ∧
    filter_frequency_lists c3dicts c3fl =
      Except.ok [(("a" : Token), [("abcde" : Token)]), (("b" : Token), [])] ∧
    ∀ p ∈ [(("a" : Token), [("abcde" : Token)]),
        (("b" : Token), ([] : List Token))], ("abcdef" : Token) ∉ p.2 :=
  ⟨rfl, rfl, rfl, by decide⟩

/-- C3 amended: whenever any final output list of filter_frequency_lists
retains a token, that list is the unique owner recorded by the global
index, namely the first list achieving the numerically lowest rank of the
token across all loaded lists, and no other output list retains the token;
the owning list itself may still drop the token through the heuristic
filter or the capacity cut. -/
theorem at_most_one_list_retains_its_owner
    (dicts : List (Token × Option Nat))
    (freq_lists : List (Token × List (Token × Nat)))
    (res : List (Token × List Token))
    (hn : (freq_lists.map Prod.fst).Nodup)
    (hk : ∀ p ∈ freq_lists, (p.2.map Prod.fst).Nodup)
    (hf : filter_frequency_lists dicts freq_lists = Except.ok res)
    (name : Token) (out : List Token) (hmem : (name, out) ∈ res)
    (t : Token) (ht : t ∈ out) :
    (specFirstMin (specOccurrences t freq_lists)).map Prod.fst = some name ∧
    (∃ r, specFirstMin (specOccurrences t freq_lists) = some (name, r) ∧
      ∀ q ∈ specOccurrences t freq_lists, r ≤ q.2) ∧
    (∀ name2 out2, (name2, out2) ∈ res → t ∈ out2 → name2 = name) := by
  rcases hb : buildMinIndex freq_lists ⟨[], []⟩ with e | idx
  · simp only [filter_frequency_lists, hb] at hf
    exact Except.noConfusion hf
  · simp only [filter_frequency_lists, hb] at hf
    obtain ⟨idx2, hbi, hspec⟩ :=
      global_dedup_records_lowest_rank_first_owner freq_lists hn hk
    rw [hb] at hbi
    injection hbi with hbi2
    subst hbi2
    have hkey : ∀ name3 out3, (name3, out3) ∈ res → ∀ t2 ∈ out3,
        dictLookup idx.minimum_name t2 = some name3 := by
      intro name3 out3 hmem3 t2 ht2
      obtain ⟨entries, cap, hfl, hcap, hout⟩ :=
        packLists_mem dicts idx freq_lists res hf (name3, out3) hmem3
      have hout2 : out3 = (pack (survivors name3 entries idx) cap).map Prod.fst :=
        hout
      rw [hout2] at ht2
      obtain ⟨x, hx, rfl⟩ := List.mem_map.mp ht2
      exact (mem_survivors _ _ _ _ (mem_pack _ _ _ hx)).2.1
    have howner : dictLookup idx.minimum_name t = some name :=
      hkey name out hmem t ht
    have hfst : (specFirstMin (specOccurrences t freq_lists)).map Prod.fst =
        some name := by
      rw [← (hspec t).2.1]
      exact howner
    refine ⟨hfst, ?_, ?_⟩
    · obtain ⟨p, hp, hp1⟩ := Option.map_eq_some'.mp hfst
      refine ⟨p.2, ?_, specFirstMin_le _ p hp⟩
      rw [hp, ← hp1]
    · intro name2 out2 hmem2 ht2
      have h2 := hkey name2 out2 hmem2 t ht2
      rw [howner] at h2
      injection h2 with h3
      exact h3.symm

theorem at_most_one_list_retains_its_owner_witness :
    (specFirstMin (specOccurrences ("abcde") c3fl)).map Prod.fst =
      some ("a" : Token) ∧
    (∃ r, specFirstMin (specOccurrences ("abcde") c3fl) = some (("a" : Token), r) ∧
      ∀ q ∈ specOccurrences ("abcde") c3fl, r ≤ q.2) ∧
    (∀ name2 out2,
      (name2, out2) ∈ [(("a" : Token), [("abcde" : Token)]),
        (("b" : Token), ([] : List Token))] →
      ("abcde" : Token) ∈ out2 → name2 = ("a" : Token)) :=
  at_most_one_list_retains_its_owner c3dicts c3fl
    [(("a" : Token), [("abcde" : Token)]), (("b" : Token), [])]
    (by decide) (by decide) rfl ("a") [("abcde" : Token)] (by decide)
    ("abcde") (by decide)

/-- C6: every final output list of filter_frequency_lists is the token
projection of its packed survivor list, which is sorted ascending by rank;
under a configured positive capacity the output length is at most the
capacity, with no configured capacity nothing is cut, and the truncation
happens strictly after sorting, so every kept pair has a rank no greater
than that of any dropped pair of the sorted survivor list. -/
theorem output_sorted_and_capped_after_sort
    (dicts : List (Token × Option Nat))
    (freq_lists : List (Token × List (Token × Nat)))
    (res : List (Token × List Token))
    (hf : filter_frequency_lists dicts freq_lists = Except.ok res)
    (name : Token) (out : List Token) (hmem : (name, out) ∈ res) :
    ∃ idx entries cap,
      buildMinIndex freq_lists ⟨[], []⟩ = Except.ok idx ∧
      (name, entries) ∈ freq_lists ∧
      dictLookup dicts name = some cap ∧
      out = (pack (survivors name entries idx) cap).map Prod.fst ∧
      List.Sorted rankLE (pack (survivors name entries idx) cap) ∧
      (∀ c, cap = some c → 0 < c → out.length ≤ c) ∧
      (cap = none →
        pack (survivors name entries idx) none =
          List.insertionSort rankLE (survivors name entries idx) ∧
        out.length = (survivors name entries idx).length) ∧
      (∀ x ∈ pack (survivors name entries idx) cap,
        ∀ y ∈ (List.insertionSort rankLE (survivors name entries idx)).drop
          (pack (survivors name entries idx) cap).length, x.2 ≤ y.2) := by
  rcases hb : buildMinIndex freq_lists ⟨[], []⟩ with e | idx
  · simp only [filter_frequency_lists, hb] at hf
    exact Except.noConfusion hf
  · simp only [filter_frequency_lists, hb] at hf
    obtain ⟨entries, cap, hfl, hcap, hout⟩ :=
      packLists_mem dicts idx freq_lists res hf (name, out) hmem
    have hout2 : out = (pack (survivors name entries idx) cap).map Prod.fst :=
      hout
    refine ⟨idx, entries, cap, rfl, hfl, hcap, hout2, pack_sorted _ _, ?_, ?_,
      pack_le_dropped _ _⟩
    · intro c hc hpos
      rw [hout2, List.length_map, hc]
      exact pack_length_le _ c hpos
    · intro hc
      subst hc
      refine ⟨pack_none _, ?_⟩
      rw [hout2, List.length_map, pack_none, List.length_insertionSort]

/-- Configuration for the packer witness, one list capped at one entry. -/
def c6dicts : List (Token × Option Nat) := [("nm", some 1)]

/-- Loaded list for the packer witness, two owned surviving tokens. -/
def c6fl : List (Token × List (Token × Nat)) :=
  [("nm", [("abc", 1), ("abd", 2)])]

theorem output_sorted_and_capped_after_sort_witness :
    ∃ idx entries cap,
      buildMinIndex c6fl ⟨[], []⟩ = Except.ok idx ∧
      (("nm" : Token), entries) ∈ c6fl ∧
      dictLookup c6dicts ("nm") = some cap ∧
      [("abc" : Token)] = (pack (survivors ("nm") entries idx) cap).map Prod.fst ∧
      List.Sorted rankLE (pack (survivors ("nm") entries idx) cap) ∧
      (∀ c, cap = some c → 0 < c → ([("abc" : Token)] : List Token).length ≤ c) ∧
      (cap = none →
        pack (survivors ("nm") entries idx) none =
          List.insertionSort rankLE (survivors ("nm") entries idx) ∧
        ([("abc" : Token)] : List Token).length =
          (survivors ("nm") entries idx).length) ∧
      (∀ x ∈ pack (survivors ("nm") entries idx) cap,
        ∀ y ∈ (List.insertionSort rankLE (survivors ("nm") entries idx)).drop
          (pack (survivors ("nm") entries idx) cap).length, x.2 ≤ y.2) :=
  output_sorted_and_capped_after_sort c6dicts c6fl
    [(("nm" : Token), [("abc" : Token)])] rfl ("nm") [("abc" : Token)]
    (by decide)

/-- C10: the brute force dominance lookup consults the global minimum rank
index built from all loaded tokens before any ownership or capacity
filtering: on this input the token abcdef of list a is excluded because
its prefix abcde sits in the index at rank 2, although abcde is owned by
the other list b and, being cut by the capacity of b, appears in no final
output list at all. -/
theorem brutal_lookup_consults_global_index :
    filter_frequency_lists c10dicts c10fl =
      Except.ok [(("a" : Token), []), (("b" : Token), [("qwert" : Token)])] ∧
    buildMinIndex c10fl ⟨[], []⟩ = Except.ok
      ⟨[(("abcdef" : Token), 5000), (("qwert" : Token), 1), (("abcde" : Token), 2)],
       [(("abcdef" : Token), ("a" : Token)), (("qwert" : Token), ("b" : Token)),
        (("abcde" : Token), ("b" : Token))]⟩ ∧
    dictLookup c10fl ("a") = some [(("abcdef" : Token), 5000)] ∧
    is_brutal_better ("abcdef") 5000
      [(("abcdef" : Token), 5000), (("qwert" : Token), 1),
       (("abcde" : Token), 2)] = true ∧
    (("abcdef" : Token)).dropRight 1 = ("abcde" : Token) ∧
    dictLookup [(("abcdef" : Token), ("a" : Token)),
      (("qwert" : Token), ("b" : Token)), (("abcde" : Token), ("b" : Token))]
      ("abcde") = some ("b" : Token) ∧
    (("b" : Token) ≠ ("a" : Token)) ∧
    ∀ p ∈ [(("a" : Token), ([] : List Token)),
        (("b" : Token), [("qwert" : Token)])], ("abcde" : Token) ∉ p.2 :=
  ⟨rfl, rfl, rfl, by decide, by decide, rfl, by decide, by decide⟩

end BuildFrequencyLists
